import Mathlib

/-
Verification of the fclib N-dimensional array engine (src/fclib/arr.h).

Modelling conventions (shallow embedding):
- A constructed array is represented by its shape (`dims : List Nat`, the
  per-axis lengths stored in the header) and its payload, a byte-addressed
  memory region `mem : Nat → Nat` (offset 0 is the first payload byte, i.e.
  the C `data_start`).  Bytes are natural numbers; reads that must behave as
  C bytes reduce them mod 256.
- `size_t` values are natural numbers; wherever the C code can wrap
  (unsigned subtraction in range validation, products and running offsets),
  the model reduces mod `W = 2^64` exactly where the C code computes in
  `size_t`.
- `memcpy` is modelled by `memcpyAt`: it overlays `len` bytes read from a
  source function onto the destination.  All `memcpy` calls in arr.h copy
  between non-overlapping regions, so reading the source from the pre-state
  is exact.
- Freshly malloc'd memory is uninitialized in C; model functions that
  allocate take an explicit `uninit : Nat → Nat` describing those
  indeterminate bytes.
- C loops are modelled by structural recursion.  The one `while` loop
  (exponential fill) gets a fuel argument; fuel `total` is sufficient
  because `filled` grows by at least one per iteration starting from 1.
-/

/-- Size of the machine word modulus, 2^64 (size_t arithmetic). -/
def W : Nat := 18446744073709551616

/-- C unsigned subtraction `a - b` on size_t: wraps modulo 2^64. -/
def sub64 (a b : Nat) : Nat := (a + W - b) % W

/-- Model of memcpy(dest + dOff, src, len): bytes [dOff, dOff+len) of the
destination are replaced by src 0 .. src (len-1); everything else keeps the
destination's bytes.  Used only for non-overlapping copies, where reading
the source from the pre-state matches C memcpy exactly. -/
def memcpyAt (dest : Nat → Nat) (dOff : Nat) (src : Nat → Nat) (len : Nat) : Nat → Nat :=
  fun j => if dOff ≤ j ∧ j < dOff + len then src (j - dOff) else dest j

/-- Little-endian object representation of a size_t value `v`: byte i of the
8-byte container holding `v` (bytes beyond index 7 of an in-range size_t are
zero). -/
def valBytes (v : Nat) : Nat → Nat :=
  fun i => v / 256 ^ i % 256

/-- Reading `n` bytes little-endian starting at byte offset `off`. -/
def readLE (mem : Nat → Nat) (off : Nat) : Nat → Nat
  | 0 => 0
  | n + 1 => mem off % 256 + 256 * readLE mem (off + 1) n

/-- Total element count as computed by the fill/free loops in arr.h:
`total_elements *= dim_lengths[i]` in size_t arithmetic. -/
def totalElems (dims : List Nat) : Nat :=
  dims.foldl (fun acc l => acc * l % W) 1

/-- The loop `for (i = 1; i < total_elements; i++) memcpy(slot i, slot i-1)`
of fclib_arr_fill_seq; `k` is the number of iterations remaining and `i` the
current slot index. -/
def fillSeqLoop (es : Nat) : Nat → Nat → (Nat → Nat) → (Nat → Nat)
  | 0, _, mem => mem
  | k + 1, i, mem =>
      fillSeqLoop es k (i + 1) (memcpyAt mem (i * es) (fun o => mem ((i - 1) * es + o)) es)

/-- fclib_arr_fill_seq (src/fclib/arr.h): copy the seed into slot 0, then
copy slot i-1 over slot i for i = 1 .. total_elements - 1.  The head copy is
performed before the element count is consulted, exactly as in the source. -/
def fclib_arr_fill_seq (dims : List Nat) (es : Nat) (value mem : Nat → Nat) : Nat → Nat :=
  let total := totalElems dims
  fillSeqLoop es (total - 1) 1 (memcpyAt mem 0 value es)

/-- The `while (filled < total_elements)` doubling loop of
fclib_arr_fill_exp.  The first argument is fuel; the loop body copies the
already-filled prefix of `toCopy` elements to offset `filled`.  Fuel `total`
is sufficient: `filled` starts at 1 and gains at least one element per
iteration, so the fuel-exhausted base case is never reached from the
top-level call. -/
def fillExpLoop (total es : Nat) : Nat → Nat → (Nat → Nat) → (Nat → Nat)
  | 0, _, mem => mem
  | fuel + 1, filled, mem =>
      if filled < total then
        fillExpLoop total es fuel
          (filled + (if filled ≤ total - filled then filled else total - filled))
          (memcpyAt mem (filled * es) mem
            ((if filled ≤ total - filled then filled else total - filled) * es))
      else mem

/-- fclib_arr_fill_exp (src/fclib/arr.h): copy the seed into slot 0, then
repeatedly copy the filled prefix onto the next unfilled portion. -/
def fclib_arr_fill_exp (dims : List Nat) (es : Nat) (value mem : Nat → Nat) : Nat → Nat :=
  let total := totalElems dims
  fillExpLoop total es total 1 (memcpyAt mem 0 value es)

/-- fclib_arr_fill_val (src/fclib/arr.h): hybrid fill.  The seed is the
`element_size`-byte object representation of the size_t `v` (the code does
`memcpy(data_start, &value, element_size)`; for element_size > 8 the C code
would read past the 8-byte object, so theorems restrict to element_size ≤ 8).
Then the exponential loop is used when `element_size < 128`, else the
sequential loop. -/
def fclib_arr_fill_val (dims : List Nat) (es : Nat) (v : Nat) (mem : Nat → Nat) : Nat → Nat :=
  let total := totalElems dims
  let mem1 := memcpyAt mem 0 (valBytes v) es
  if es < 128 then fillExpLoop total es total 1 mem1
  else fillSeqLoop es (total - 1) 1 mem1

/-- Characterization target shared by all fill proofs: the first
`n * element_size` payload bytes hold the seed pattern, everything beyond is
the original memory.  (`n` is `max total_elements 1` for the fills, because
the head copy happens even when the element count is zero.) -/
def fillUpTo (n es : Nat) (value mem : Nat → Nat) : Nat → Nat :=
  fun j => if j < n * es then value (j % es) else mem j

/-- The offset/stride accumulation loop of fclib_arr_access: walks the
remaining per-axis lengths, reads `indices i` for each axis, returns `none`
(NULL) at the first out-of-bounds axis, and otherwise accumulates
`offset += indices[i] * stride; stride *= dim_lengths[i]` in size_t
arithmetic. -/
def accessGo (indices : Nat → Nat) : List Nat → Nat → Nat → Nat → Option Nat
  | [], _, offset, _ => some offset
  | l :: ls, i, offset, stride =>
      if indices i ≥ l then none
      else accessGo indices ls (i + 1) ((offset + indices i * stride) % W) (stride * l % W)

/-- fclib_arr_access (src/fclib/arr.h): bounds-checked flat addressing.
`none` models the NULL return on an out-of-bounds axis; `some b` models the
returned pointer `data_start + offset * element_size` as the payload byte
offset `b = offset * element_size`. -/
def fclib_arr_access (dims : List Nat) (es : Nat) (indices : Nat → Nat) : Option Nat :=
  (accessGo indices dims 0 0 1).map (fun offset => offset * es)

/-- fclib_arr_access_val (src/fclib/arr.h): reads `element_size` bytes of
the accessed element into a machine-word container.  The C container
(`size_t value`) is uninitialized; `g` is its indeterminate initial
contents, whose bytes above `element_size` survive into the returned value.
When fclib_arr_access returns NULL the C code passes NULL to memcpy, which
is undefined behavior (a crash, not a returned sentinel); that outcome is
modelled as `none`. -/
def fclib_arr_access_val (dims : List Nat) (es : Nat) (indices : Nat → Nat)
    (mem : Nat → Nat) (g : Nat) : Option Nat :=
  match fclib_arr_access dims es indices with
  | none => none
  | some b => some (readLE mem b es + 256 ^ es * (g / 256 ^ es))

/-- fclib_arr_assign_at (src/fclib/arr.h): copies `element_size` bytes from
the value object into the accessed element.  When fclib_arr_access returns
NULL the C code passes NULL as memcpy's destination — undefined behavior,
modelled as `none`; on success the updated payload is returned. -/
def fclib_arr_assign_at (dims : List Nat) (es : Nat) (indices : Nat → Nat)
    (value mem : Nat → Nat) : Option (Nat → Nat) :=
  match fclib_arr_access dims es indices with
  | none => none
  | some b => some (memcpyAt mem b value es)

/-- fclib_arr_assign_val_at (src/fclib/arr.h): like fclib_arr_assign_at but
the source bytes are the object representation of the size_t `v`. -/
def fclib_arr_assign_val_at (dims : List Nat) (es : Nat) (indices : Nat → Nat)
    (v : Nat) (mem : Nat → Nat) : Option (Nat → Nat) :=
  match fclib_arr_access dims es indices with
  | none => none
  | some b => some (memcpyAt mem b (valBytes v) es)

/-- The stride table of the specification: stride[i] is the product of the
axis lengths before axis i, so stride[0] = 1 and
stride[i] = stride[i-1] * shape[i-1]. -/
def specStride (dims : List Nat) (i : Nat) : Nat :=
  (dims.take i).prod

/-- The specification's flat offset, `Σ indices[i] * stride[i]` (exact
arithmetic, no wrap). -/
def specOffset (dims : List Nat) (indices : Nat → Nat) : Nat :=
  Finset.sum (Finset.range dims.length) (fun i => indices i * specStride dims i)

/-- Result of a slicing call: a fresh array (shape plus payload bytes), the
NULL return of the N-D validator (`invalid`), or process termination —
abort() in the 1-D slicer or a failed assert in the N-D slicer (`fatal`). -/
inductive SliceResult where
  | ok (dims : List Nat) (payload : Nat → Nat)
  | invalid
  | fatal

/-- Shape of a slice result (empty for the non-array outcomes). -/
def SliceResult.getDims : SliceResult → List Nat
  | .ok d _ => d
  | _ => []

/-- Payload byte `j` of a slice result (0 for the non-array outcomes). -/
def SliceResult.byteAt : SliceResult → Nat → Nat
  | .ok _ p, j => p j
  | _, _ => 0

/-- The clamped upper bound of fclib_arr_get_slice_1d: `to == 0` means the
source length, and a bound above the source length is clamped to it. -/
def slice1dRealTo (srcLen t : Nat) : Nat :=
  let r := if t = 0 then srcLen else t
  if r > srcLen then srcLen else r

/-- The clamped lower bound of fclib_arr_get_slice_1d: when `from` exceeds
the clamped upper bound it is clamped to that bound minus one. -/
def slice1dRealFrom (srcLen frm t : Nat) : Nat :=
  if frm > slice1dRealTo srcLen t then slice1dRealTo srcLen t - 1 else frm

/-- fclib_arr_get_slice_1d (src/fclib/arr.h) on a 1-D source of length
`srcLen`: clamp the bounds, abort (`fatal`) on an empty range or on
`from > to` with clamped `to` of zero, and otherwise return a fresh 1-D
array whose payload is a verbatim copy of source bytes
[real_from * es, real_to * es). -/
def fclib_arr_get_slice_1d (srcLen es frm t : Nat) (srcMem uninit : Nat → Nat) : SliceResult :=
  let rt := slice1dRealTo srcLen t
  if frm = rt then .fatal
  else if frm > rt ∧ rt = 0 then .fatal
  else
    let rf := slice1dRealFrom srcLen frm t
    let len := rt - rf
    .ok [len] (fun j => if j < len * es then srcMem (rf * es + j) else uninit j)

/-- The validation loop of fclib_arr_get_slice: walks the axes, returns
`none` (NULL) at the first violated per-axis rule and otherwise counts the
range axes (the new dimensionality).  The difference `to - from` is the
code's unsigned size_t subtraction `sub64`. -/
def sliceValidateGo (r : Nat → Nat) : List Nat → Nat → Nat → Option Nat
  | [], _, nd => some nd
  | l :: ls, i, nd =>
      let frm := r (2 * i)
      let t := r (2 * i + 1)
      if frm ≠ t then
        if t > l then none
        else if sub64 t frm < 2 then none
        else sliceValidateGo r ls (i + 1) (nd + 1)
      else
        if frm ≥ l then none
        else sliceValidateGo r ls (i + 1) nd

/-- Validation phase of fclib_arr_get_slice: `some new_dimensionality` when
every axis passes, `none` when the call returns NULL. -/
def sliceValidate (dims : List Nat) (r : Nat → Nat) : Option Nat :=
  sliceValidateGo r dims 0 0

/-- One axis violating its rule, in the words of the specification (with
`to - from` read as the code's unsigned subtraction): a fixed axis
(`from = to`) with `from ≥ shape[i]`, or a range axis with
`to > shape[i]` or `to - from < 2`. -/
def axisViolates (len frm t : Nat) : Prop :=
  (frm = t ∧ frm ≥ len) ∨ (frm ≠ t ∧ (t > len ∨ sub64 t frm < 2))

instance (len frm t : Nat) : Decidable (axisViolates len frm t) := by
  unfold axisViolates
  infer_instance

/-- Some axis of the slice request violates its rule (specification words). -/
def specSomeAxisViolates (dims : List Nat) (r : Nat → Nat) : Prop :=
  ∃ i, i < dims.length ∧ axisViolates (dims.getD i 0) (r (2 * i)) (r (2 * i + 1))

/-- The new dimension lengths collected by fclib_arr_get_slice: the wrapped
difference `to - from` of every range axis, in axis order. -/
def sliceNewDimsGo (r : Nat → Nat) : List Nat → Nat → List Nat
  | [], _ => []
  | _ :: ls, i =>
      let frm := r (2 * i)
      let t := r (2 * i + 1)
      if frm ≠ t then sub64 t frm :: sliceNewDimsGo r ls (i + 1)
      else sliceNewDimsGo r ls (i + 1)

/-- New dimension lengths of the slice result (range axes only). -/
def sliceNewDims (dims : List Nat) (r : Nat → Nat) : List Nat :=
  sliceNewDimsGo r dims 0

/-- Source stride table as computed by fclib_arr_get_slice:
src_strides[0] = 1, src_strides[i] = src_strides[i-1] * src_dim_lengths[i-1]
in size_t arithmetic. -/
def stridesOfGo : List Nat → Nat → List Nat
  | [], _ => []
  | l :: ls, s => s :: stridesOfGo ls (s * l % W)

/-- Stride table for a shape (axis 0 varies fastest). -/
def stridesOf (dims : List Nat) : List Nat :=
  stridesOfGo dims 1

/-- Product of the result dimension lengths in size_t arithmetic
(`total_result_elements`). -/
def listProdW (ls : List Nat) : Nat :=
  ls.foldl (fun acc l => acc * l % W) 1

/-- One axis of the odometer-increment loop body of fclib_arr_get_slice:
fixed axes are skipped; a range axis is incremented and reports a break
when it stays below `to`, otherwise it wraps back to `from`. -/
def odoAxis (r : Nat → Nat) (i : Nat) (cur : List Nat) : List Nat × Bool :=
  let frm := r (2 * i)
  let t := r (2 * i + 1)
  if frm = t then (cur, false)
  else
    let v := cur.getD i 0 + 1
    if v < t then (cur.set i v, true) else (cur.set i frm, false)

/-- The odometer-increment loop `for (i = dim-1; i >= start_dim; i--)` of
fclib_arr_get_slice, entered at axis `i`, stopping at the first axis that
reports a break.  When no axis breaks the C loop would decrement `i` below
`start_dim` — for `start_dim = 0` the unsigned counter wraps and the loop
reads out of bounds (undefined behavior); that situation is unreachable in
the chunk loop, which performs exactly one fewer increment than there are
odometer combinations, and is modelled as stopping with the wrapped-around
indices. -/
def odoStep (r : Nat → Nat) (startDim : Nat) : Nat → List Nat → List Nat
  | 0, cur => (odoAxis r 0 cur).1
  | i + 1, cur =>
      let step := odoAxis r (i + 1) cur
      if step.2 then step.1
      else if i + 1 = startDim then step.1
      else odoStep r startDim i step.1

/-- Source element offset of the current odometer position:
`Σ current_indices[i] * src_strides[i]` in size_t arithmetic. -/
def srcOffsetOf : List Nat → List Nat → Nat → Nat
  | [], _, acc => acc
  | _ :: _, [], acc => acc
  | c :: cs, s :: ss, acc => srcOffsetOf cs ss ((acc + c * s) % W)

/-- The chunk-copy loop of fclib_arr_get_slice: each iteration (after the
first) advances the odometer, then copies `chunk` contiguous source
elements starting at the current source offset to the next destination
position. -/
def sliceLoop (r : Nat → Nat) (es : Nat) (strides : List Nat) (startDim lastAxis chunk : Nat)
    (srcMem : Nat → Nat) : Nat → List Nat → Nat → (Nat → Nat) → (Nat → Nat)
  | 0, _, _, dest => dest
  | k + 1, cur, destIdx, dest =>
      let cur' := odoStep r startDim lastAxis cur
      let off := srcOffsetOf cur' strides 0
      let dest' := memcpyAt dest (destIdx * es) (fun o => srcMem (off * es + o)) (chunk * es)
      sliceLoop r es strides startDim lastAxis chunk srcMem k cur' (destIdx + chunk) dest'

/-- Initial odometer position: `current_indices[i] = ranges[2 i]`. -/
def initIndices (r : Nat → Nat) (d : Nat) : List Nat :=
  (List.range d).map (fun i => r (2 * i))

/-- The chunk size of fclib_arr_get_slice: `ranges[1] - ranges[0]` elements
when axis 0 is a range (`is_first_range`), else one element. -/
def sliceChunk (r : Nat → Nat) : Nat :=
  if r 0 ≠ r 1 then sub64 (r 1) (r 0) else 1

/-- The copy loop of fclib_arr_get_slice for the general (non-1-D) path:
copies the first chunk at the initial odometer position, then alternates
odometer increments and chunk copies for the remaining chunks, producing
the result payload. -/
def sliceChunkCopy (dims : List Nat) (es : Nat) (r : Nat → Nat)
    (srcMem uninit : Nat → Nat) : Nat → Nat :=
  let strides := stridesOf dims
  let chunk := sliceChunk r
  let numChunks := listProdW (sliceNewDims dims r) / chunk
  let startDim := if r 0 ≠ r 1 then 1 else 0
  let cur0 := initIndices r dims.length
  let off0 := srcOffsetOf cur0 strides 0
  let dest0 := memcpyAt uninit 0 (fun o => srcMem (off0 * es + o)) (chunk * es)
  sliceLoop r es strides startDim (dims.length - 1) chunk srcMem
    (numChunks - 1) cur0 chunk dest0

/-- fclib_arr_get_slice (src/fclib/arr.h).  Validation may return NULL
(`invalid`).  The active `assert(new_dimensionality > 0)` aborts
(`fatal`) on an all-fixed-index selection.  A 1-D source with a 1-D result
delegates to fclib_arr_get_slice_1d (the code's `assert(is_first_range)`
is the inner condition).  Otherwise the result shape is the wrapped range
lengths; the active `assert(total_result_elements % chunk_size == 0)` is
modelled by the corresponding `fatal` branch, and when the chunk count is
zero (possible only through wrapped products) the loop body never runs, so
the payload stays uninitialized. -/
def fclib_arr_get_slice (dims : List Nat) (es : Nat) (r : Nat → Nat)
    (srcMem uninit : Nat → Nat) : SliceResult :=
  match sliceValidate dims r with
  | none => .invalid
  | some ndim =>
      if ndim = 0 then .fatal
      else
        if dims.length = 1 ∧ ndim = 1 then
          if r 0 ≠ r 1 then
            fclib_arr_get_slice_1d (dims.headD 0) es (r 0) (r 1) srcMem uninit
          else .fatal
        else
          if listProdW (sliceNewDims dims r) % sliceChunk r ≠ 0 then .fatal
          else
            if listProdW (sliceNewDims dims r) / sliceChunk r = 0 then
              .ok (sliceNewDims dims r) uninit
            else
              .ok (sliceNewDims dims r) (sliceChunkCopy dims es r srcMem uninit)

/- ------------------------------------------------------------------ -/
/- Helper lemmas about the fill strategies                              -/
/- ------------------------------------------------------------------ -/

theorem memcpy_head (es : Nat) (value mem : Nat → Nat) :
    memcpyAt mem 0 value es = fillUpTo 1 es value mem := by
  funext j
  unfold memcpyAt fillUpTo
  by_cases h : j < es
  · rw [if_pos ⟨Nat.zero_le j, by omega⟩, if_pos (by omega)]
    rw [Nat.sub_zero, Nat.mod_eq_of_lt h]
  · rw [if_neg (by omega), if_neg (by omega)]

theorem memcpy_slot_succ (es i : Nat) (value mem : Nat → Nat) (hi : 1 ≤ i) :
    memcpyAt (fillUpTo i es value mem) (i * es)
      (fun o => fillUpTo i es value mem ((i - 1) * es + o)) es
      = fillUpTo (i + 1) es value mem := by
  have hie : (i - 1) * es + es = i * es := by
    have h1 : i - 1 + 1 = i := Nat.succ_pred_eq_of_pos hi
    calc (i - 1) * es + es = (i - 1 + 1) * es := (Nat.succ_mul _ _).symm
      _ = i * es := by rw [h1]
  funext j
  unfold memcpyAt fillUpTo
  by_cases h : i * es ≤ j ∧ j < i * es + es
  · obtain ⟨h1, h2⟩ := h
    rw [if_pos ⟨h1, h2⟩]
    have ho : j - i * es < es := by omega
    have hin : (i - 1) * es + (j - i * es) < i * es := by omega
    simp only []
    rw [if_pos hin, if_pos (show j < (i + 1) * es by
      have : (i + 1) * es = i * es + es := Nat.succ_mul _ _
      omega)]
    have hm1 : ((i - 1) * es + (j - i * es)) % es = (j - i * es) % es :=
      Nat.mul_add_mod' _ _ _
    have hm2 : j % es = (j - i * es) % es := by
      conv_lhs => rw [show j = i * es + (j - i * es) by omega]
      exact Nat.mul_add_mod' _ _ _
    rw [hm1, hm2]
  · rw [if_neg h]
    by_cases hj : j < i * es
    · rw [if_pos hj, if_pos (by
        have : i * es ≤ (i + 1) * es := Nat.mul_le_mul_right _ (by omega)
        omega)]
    · have hge : i * es + es ≤ j := by omega
      rw [if_neg hj, if_neg (by
        have : (i + 1) * es = i * es + es := Nat.succ_mul _ _
        omega)]

theorem fillSeqLoop_char (es : Nat) (value mem : Nat → Nat) :
    ∀ (k i : Nat), 1 ≤ i →
      fillSeqLoop es k i (fillUpTo i es value mem) = fillUpTo (i + k) es value mem := by
  intro k
  induction k with
  | zero => intro i _; rfl
  | succ k ih =>
      intro i hi
      show fillSeqLoop es k (i + 1)
          (memcpyAt (fillUpTo i es value mem) (i * es)
            (fun o => fillUpTo i es value mem ((i - 1) * es + o)) es)
        = fillUpTo (i + (k + 1)) es value mem
      have harith : i + (k + 1) = i + 1 + k := by omega
      rw [memcpy_slot_succ es i value mem hi, harith]
      exact ih (i + 1) (by omega)

theorem fill_seq_char (dims : List Nat) (es : Nat) (value mem : Nat → Nat) :
    fclib_arr_fill_seq dims es value mem
      = fillUpTo (max (totalElems dims) 1) es value mem := by
  unfold fclib_arr_fill_seq
  have harith : max (totalElems dims) 1 = 1 + (totalElems dims - 1) := by omega
  rw [memcpy_head, fillSeqLoop_char es value mem (totalElems dims - 1) 1 (le_refl 1), harith]

theorem memcpy_double (es filled toCopy : Nat) (value mem : Nat → Nat)
    (h1 : toCopy ≤ filled) :
    memcpyAt (fillUpTo filled es value mem) (filled * es)
      (fillUpTo filled es value mem) (toCopy * es)
      = fillUpTo (filled + toCopy) es value mem := by
  have hadd : (filled + toCopy) * es = filled * es + toCopy * es := Nat.add_mul _ _ _
  funext j
  unfold memcpyAt fillUpTo
  by_cases h : filled * es ≤ j ∧ j < filled * es + toCopy * es
  · obtain ⟨ha, hb⟩ := h
    rw [if_pos ⟨ha, hb⟩]
    have ho : j - filled * es < toCopy * es := by omega
    have hin : j - filled * es < filled * es :=
      lt_of_lt_of_le ho (Nat.mul_le_mul_right _ h1)
    rw [if_pos hin, if_pos (by omega)]
    have hm : j % es = (j - filled * es) % es := by
      conv_lhs => rw [show j = filled * es + (j - filled * es) by omega]
      exact Nat.mul_add_mod' _ _ _
    rw [hm]
  · rw [if_neg h]
    by_cases hj : j < filled * es
    · rw [if_pos hj, if_pos (by omega)]
    · rw [if_neg hj, if_neg (by omega)]

theorem fillExpLoop_char (total es : Nat) (value mem : Nat → Nat) :
    ∀ (fuel filled : Nat), 1 ≤ filled → filled ≤ total → total - filled ≤ fuel →
      fillExpLoop total es fuel filled (fillUpTo filled es value mem)
        = fillUpTo total es value mem := by
  intro fuel
  induction fuel with
  | zero =>
      intro filled h1 h2 h3
      have : filled = total := by omega
      rw [this]
      rfl
  | succ fuel ih =>
      intro filled h1 h2 h3
      show (if filled < total then
          fillExpLoop total es fuel
            (filled + (if filled ≤ total - filled then filled else total - filled))
            (memcpyAt (fillUpTo filled es value mem) (filled * es)
              (fillUpTo filled es value mem)
              ((if filled ≤ total - filled then filled else total - filled) * es))
        else fillUpTo filled es value mem) = _
      by_cases hlt : filled < total
      · rw [if_pos hlt]
        have htc2 : (if filled ≤ total - filled then filled else total - filled) ≤ filled := by
          split <;> omega
        have htc3 : filled + (if filled ≤ total - filled then filled else total - filled) ≤ total := by
          split <;> omega
        have htc1 : 1 ≤ (if filled ≤ total - filled then filled else total - filled) := by
          split <;> omega
        rw [memcpy_double es filled _ value mem htc2]
        exact ih (filled + _) (by omega) htc3 (by omega)
      · rw [if_neg hlt]
        have : filled = total := by omega
        rw [this]

theorem fill_exp_char (dims : List Nat) (es : Nat) (value mem : Nat → Nat) :
    fclib_arr_fill_exp dims es value mem
      = fillUpTo (max (totalElems dims) 1) es value mem := by
  unfold fclib_arr_fill_exp
  rw [memcpy_head]
  rcases Nat.eq_zero_or_pos (totalElems dims) with h | h
  · rw [h]
    rfl
  · have hm : max (totalElems dims) 1 = totalElems dims := by omega
    rw [hm]
    exact fillExpLoop_char (totalElems dims) es value mem (totalElems dims) 1 (le_refl 1) h
      (by omega)

theorem fill_val_char (dims : List Nat) (es : Nat) (v : Nat) (mem : Nat → Nat) :
    fclib_arr_fill_val dims es v mem
      = fillUpTo (max (totalElems dims) 1) es (valBytes v) mem := by
  have hsplit : fclib_arr_fill_val dims es v mem
      = if es < 128 then fclib_arr_fill_exp dims es (valBytes v) mem
        else fclib_arr_fill_seq dims es (valBytes v) mem := by
    unfold fclib_arr_fill_val fclib_arr_fill_exp fclib_arr_fill_seq
    split <;> rfl
  rw [hsplit]
  split
  · exact fill_exp_char dims es (valBytes v) mem
  · exact fill_seq_char dims es (valBytes v) mem

theorem totalElems_aux_zero : ∀ (ds : List Nat),
    List.foldl (fun acc l => acc * l % W) 0 ds = 0 := by
  intro ds
  induction ds with
  | nil => rfl
  | cons l tail ih =>
      show List.foldl (fun acc l => acc * l % W) (0 * l % W) tail = 0
      have : 0 * l % W = 0 := by simp
      rw [this, ih]

theorem totalElems_zero_of_mem : ∀ (ds : List Nat), 0 ∈ ds →
    ∀ acc, List.foldl (fun acc l => acc * l % W) acc ds = 0 := by
  intro ds
  induction ds with
  | nil => intro h; cases h
  | cons l tail ih =>
      intro h acc
      rcases List.mem_cons.mp h with h0 | h0
      · show List.foldl (fun acc l => acc * l % W) (acc * l % W) tail = 0
        rw [← h0]
        have : acc * 0 % W = 0 := by simp
        rw [this, totalElems_aux_zero]
      · exact ih h0 (acc * l % W)

/- ------------------------------------------------------------------ -/
/- Helper lemmas about element access                                   -/
/- ------------------------------------------------------------------ -/

theorem prod_pos_of_inBounds : ∀ (ls : List Nat) (idx : Nat → Nat) (i : Nat),
    (∀ k, k < ls.length → idx (i + k) < ls.getD k 0) → 0 < ls.prod := by
  intro ls
  induction ls with
  | nil => intro idx i _; simp
  | cons l tail ih =>
      intro idx i h
      rw [List.prod_cons]
      have h0 : idx (i + 0) < l := by simpa using h 0 (by simp)
      have htail := ih idx (i + 1) (fun k hk => by
        rw [show i + 1 + k = i + (k + 1) by omega]
        simpa using h (k + 1) (by simpa using Nat.succ_lt_succ hk))
      exact Nat.mul_pos (by omega) htail

theorem accessGo_inBounds : ∀ (ls : List Nat) (idx : Nat → Nat) (i off stride : Nat),
    (∀ k, k < ls.length → idx (i + k) < ls.getD k 0) →
    off < stride →
    stride * ls.prod < W →
    accessGo idx ls i off stride
      = some (off + stride * Finset.sum (Finset.range ls.length)
          (fun k => idx (i + k) * specStride ls k)) := by
  intro ls
  induction ls with
  | nil =>
      intro idx i off stride _ _ _
      simp [accessGo]
  | cons l tail ih =>
      intro idx i off stride hb hos hW
      have h0 : idx (i + 0) < l := by simpa using hb 0 (by simp)
      rw [Nat.add_zero] at h0
      have htp : 0 < tail.prod := prod_pos_of_inBounds tail idx (i + 1) (fun k hk => by
        rw [show i + 1 + k = i + (k + 1) by omega]
        simpa using hb (k + 1) (by simpa using Nat.succ_lt_succ hk))
      rw [List.prod_cons, ← Nat.mul_assoc] at hW
      have hslW : stride * l < W :=
        lt_of_le_of_lt (Nat.le_mul_of_pos_right _ htp) hW
      have hl1 : 1 ≤ l := by omega
      have hoff' : off + idx i * stride < stride * l := by
        have hmul : idx i * stride ≤ (l - 1) * stride :=
          Nat.mul_le_mul_right _ (by omega)
        have heq : stride + (l - 1) * stride = stride * l := by
          calc stride + (l - 1) * stride = (1 + (l - 1)) * stride := by
                rw [Nat.add_mul, Nat.one_mul]
            _ = l * stride := by
                congr 1
                omega
            _ = stride * l := Nat.mul_comm _ _
        omega
      show (if l ≤ idx i then none
          else accessGo idx tail (i + 1) ((off + idx i * stride) % W) (stride * l % W)) = _
      rw [if_neg (by omega), Nat.mod_eq_of_lt (lt_of_lt_of_le hoff' (le_of_lt hslW)),
        Nat.mod_eq_of_lt hslW]
      rw [ih idx (i + 1) (off + idx i * stride) (stride * l)
        (fun k hk => by
          rw [show i + 1 + k = i + (k + 1) by omega]
          simpa using hb (k + 1) (by simpa using Nat.succ_lt_succ hk))
        hoff' hW]
      have hsum : Finset.sum (Finset.range (l :: tail).length)
          (fun k => idx (i + k) * specStride (l :: tail) k)
          = idx i + l * Finset.sum (Finset.range tail.length)
              (fun k => idx (i + 1 + k) * specStride tail k) := by
        rw [List.length_cons, Finset.sum_range_succ']
        have h0' : idx (i + 0) * specStride (l :: tail) 0 = idx i := by
          simp [specStride]
        rw [h0']
        have hterm : ∀ k ∈ Finset.range tail.length,
            idx (i + (k + 1)) * specStride (l :: tail) (k + 1)
              = l * (idx (i + 1 + k) * specStride tail k) := by
          intro k _
          have hspec : specStride (l :: tail) (k + 1) = l * specStride tail k := by
            unfold specStride
            rw [List.take_succ_cons, List.prod_cons]
          rw [hspec, show i + (k + 1) = i + 1 + k by omega]
          ring
        rw [Finset.sum_congr rfl hterm, ← Finset.mul_sum]
        ring
      rw [hsum]
      congr 1
      ring

theorem accessGo_oob : ∀ (ls : List Nat) (idx : Nat → Nat) (i off stride : Nat),
    (∃ k, k < ls.length ∧ ls.getD k 0 ≤ idx (i + k)) →
    accessGo idx ls i off stride = none := by
  intro ls
  induction ls with
  | nil =>
      rintro idx i off stride ⟨k, hk, -⟩
      simp at hk
  | cons l tail ih =>
      rintro idx i off stride ⟨k, hk, hoob⟩
      show (if l ≤ idx i then none
          else accessGo idx tail (i + 1) ((off + idx i * stride) % W) (stride * l % W)) = none
      by_cases h0 : l ≤ idx i
      · rw [if_pos h0]
      · rw [if_neg h0]
        rcases k with - | k
        · exfalso
          have hli : l ≤ idx i := by simpa using hoob
          omega
        · refine ih idx (i + 1) _ _ ⟨k, ?_, ?_⟩
          · simp at hk
            omega
          · rw [show i + 1 + k = i + (k + 1) by omega]
            simpa using hoob

theorem accessGo_isSome : ∀ (ls : List Nat) (idx : Nat → Nat) (i off stride : Nat),
    (∀ k, k < ls.length → idx (i + k) < ls.getD k 0) →
    ∃ b, accessGo idx ls i off stride = some b := by
  intro ls
  induction ls with
  | nil => intro idx i off stride _; exact ⟨off, rfl⟩
  | cons l tail ih =>
      intro idx i off stride hb
      have h0 : idx (i + 0) < l := by simpa using hb 0 (by simp)
      rw [Nat.add_zero] at h0
      show ∃ b, (if l ≤ idx i then none
          else accessGo idx tail (i + 1) ((off + idx i * stride) % W) (stride * l % W)) = some b
      rw [if_neg (by omega)]
      exact ih idx (i + 1) _ _ (fun k hk => by
        rw [show i + 1 + k = i + (k + 1) by omega]
        simpa using hb (k + 1) (by simpa using Nat.succ_lt_succ hk))

theorem specStride_zero (dims : List Nat) : specStride dims 0 = 1 := by
  simp [specStride]

theorem specStride_succ (dims : List Nat) (i : Nat) (h : i < dims.length) :
    specStride dims (i + 1) = specStride dims i * dims.getD i 0 := by
  unfold specStride
  rw [List.take_succ, List.prod_append]
  congr 1
  rw [List.getElem?_eq_getElem h]
  simp [List.getD_eq_getElem?_getD, List.getElem?_eq_getElem h]

theorem memcpyAt_hit (mem src : Nat → Nat) (b len i : Nat) (h : i < len) :
    memcpyAt mem b src len (b + i) = src i := by
  unfold memcpyAt
  rw [if_pos ⟨Nat.le_add_right _ _, by omega⟩, Nat.add_sub_cancel_left]

theorem readLE_pattern : ∀ (n : Nat) (f : Nat → Nat) (b v : Nat),
    (∀ i, i < n → f (b + i) = valBytes v i) →
    readLE f b n = v % 256 ^ n := by
  intro n
  induction n with
  | zero =>
      intro f b v _
      simp [readLE, Nat.mod_one]
  | succ n ih =>
      intro f b v h
      show f b % 256 + 256 * readLE f (b + 1) n = v % 256 ^ (n + 1)
      have h0 : f b = v % 256 := by
        have := h 0 (Nat.succ_pos n)
        simpa [valBytes] using this
      have hrec : readLE f (b + 1) n = v / 256 % 256 ^ n := by
        apply ih
        intro i hi
        have hv := h (i + 1) (Nat.succ_lt_succ hi)
        rw [show b + (i + 1) = b + 1 + i by omega] at hv
        rw [hv]
        unfold valBytes
        congr 1
        rw [Nat.div_div_eq_div_mul, ← pow_succ' 256 i]
      rw [h0, Nat.mod_mod_of_dvd v dvd_rfl, hrec, pow_succ' 256 n]
      exact Nat.mod_mul.symm

/-- C8: for every constructible array (total element count below 2^64) and
in-bounds index vector, fclib_arr_access returns the byte offset
(Σ indices[i]·stride[i]) · element_size from the payload start, with
stride[0] = 1 and stride[i+1] = stride[i] · shape[i] (axis 0 fastest);
for any out-of-bounds axis it returns the NULL sentinel instead of
computing an address. -/
theorem C8_access_address (dims : List Nat) (es : Nat) (idx : Nat → Nat)
    (hfit : dims.prod < W) :
    (specStride dims 0 = 1) ∧
      (∀ i, i < dims.length → specStride dims (i + 1) = specStride dims i * dims.getD i 0) ∧
      ((∀ i, i < dims.length → idx i < dims.getD i 0) →
        fclib_arr_access dims es idx
          = some (Finset.sum (Finset.range dims.length)
              (fun i => idx i * specStride dims i) * es)) ∧
      ((∃ i, i < dims.length ∧ dims.getD i 0 ≤ idx i) →
        fclib_arr_access dims es idx = none) := by
  refine ⟨specStride_zero dims, fun i hi => specStride_succ dims i hi, ?_, ?_⟩
  · intro hb
    unfold fclib_arr_access
    rw [accessGo_inBounds dims idx 0 0 1 (fun k hk => by simpa using hb k hk)
      Nat.zero_lt_one (by simpa using hfit)]
    simp
  · rintro ⟨i, hi, hoob⟩
    unfold fclib_arr_access
    rw [accessGo_oob dims idx 0 0 1 ⟨i, hi, by simpa using hoob⟩]
    rfl

/-- Witness for C8 on shape [4,4], element size 3, indices (1,2): offset
1·1 + 2·4 = 9, address byte 27; and indices (1,4) out of bounds: NULL. -/
theorem C8_access_address_witness :
    ([4, 4] : List Nat).prod < W ∧
      fclib_arr_access [4, 4] 3 (fun i => [1, 2].getD i 0) = some 27 ∧
      fclib_arr_access [4, 4] 3 (fun i => [1, 4].getD i 0) = none := by
  refine ⟨by decide, ?_, ?_⟩
  · have h := (C8_access_address [4, 4] 3 (fun i => [1, 2].getD i 0) (by decide)).2.2.1
      (by decide)
    rw [h]
    decide
  · exact (C8_access_address [4, 4] 3 (fun i => [1, 4].getD i 0) (by decide)).2.2.2
      ⟨1, by decide, by decide⟩

/-- C7 as stated is false: with element_size 1, writing the value 256 via
fclib_arr_assign_at at in-bounds index 0 of a 1-element array and reading
it back with fclib_arr_access_val (container initially zeroed) yields 0,
not 256 — only the low element_size bytes survive the store. -/
theorem C7_roundtrip_counterexample :
    (fclib_arr_assign_at [1] 1 (fun _ => 0) (valBytes 256) (fun _ => 0)).bind
        (fun mem' => fclib_arr_access_val [1] 1 (fun _ => 0) mem' 0) = some 0
      ∧ (0 : Nat) ≠ 256 :=
  ⟨rfl, by decide⟩

/-- C7 amended: after fclib_arr_assign_at of the element_size-byte
representation of v at an in-bounds index, fclib_arr_access_val returns a
value congruent to v modulo 2^(8·element_size): exactly the low
element_size bytes of v, with the upper bytes of the uninitialized
machine-word container (initial contents g) surviving above them.  For
element_size = 8 and v < 2^64 this value is exactly v. -/
theorem C7_assign_access_roundtrip_mod
    (dims : List Nat) (es : Nat) (idx : Nat → Nat) (v g : Nat) (mem : Nat → Nat)
    (hes : es ≤ 8) (hb : ∀ i, i < dims.length → idx i < dims.getD i 0) :
    (fclib_arr_assign_at dims es idx (valBytes v) mem).bind
        (fun mem' => fclib_arr_access_val dims es idx mem' g)
      = some (v % 256 ^ es + 256 ^ es * (g / 256 ^ es)) := by
  obtain ⟨b, hbm⟩ := accessGo_isSome dims idx 0 0 1 (fun k hk => by simpa using hb k hk)
  have hacc : fclib_arr_access dims es idx = some (b * es) := by
    unfold fclib_arr_access
    rw [hbm]
    rfl
  have hassign : fclib_arr_assign_at dims es idx (valBytes v) mem
      = some (memcpyAt mem (b * es) (valBytes v) es) := by
    unfold fclib_arr_assign_at
    rw [hacc]
  rw [hassign, Option.some_bind]
  unfold fclib_arr_access_val
  rw [hacc]
  have hread : readLE (memcpyAt mem (b * es) (valBytes v) es) (b * es) es = v % 256 ^ es :=
    readLE_pattern es _ (b * es) v (fun i hi => memcpyAt_hit mem (valBytes v) (b * es) es i hi)
  show some (readLE (memcpyAt mem (b * es) (valBytes v) es) (b * es) es
      + 256 ^ es * (g / 256 ^ es)) = _
  rw [hread]

/-- Witness for C7 amended: shape [2], element size 1, index 1, value 5,
container garbage 7: the round trip returns 5 % 256 + 256·(7/256) = 5. -/
theorem C7_assign_access_roundtrip_mod_witness :
    (1 : Nat) ≤ 8 ∧
      (∀ i, i < ([2] : List Nat).length → (fun _ => 1) i < ([2] : List Nat).getD i 0) ∧
      (fclib_arr_assign_at [2] 1 (fun _ => 1) (valBytes 5) (fun _ => 0)).bind
          (fun mem' => fclib_arr_access_val [2] 1 (fun _ => 1) mem' 7)
        = some (5 % 256 ^ 1 + 256 ^ 1 * (7 / 256 ^ 1)) :=
  ⟨by decide, by decide,
    C7_assign_access_roundtrip_mod [2] 1 (fun _ => 1) 5 7 (fun _ => 0) (by decide) (by decide)⟩

/-- C3: evaluation at the failing input shape [2], element size 1,
indices [5] (out of bounds).  fclib_arr_access itself returns the NULL
sentinel, but fclib_arr_access_val, fclib_arr_assign_at and
fclib_arr_assign_val_at then pass that NULL straight to memcpy — undefined
behavior (a null-pointer dereference), modelled as `none` here — instead of
reporting a failure signal to the caller as the claim states. -/
theorem C3_oob_wrappers_eval :
    fclib_arr_access [2] 1 (fun _ => 5) = none ∧
      fclib_arr_access_val [2] 1 (fun _ => 5) (fun _ => 0) 0 = none ∧
      fclib_arr_assign_at [2] 1 (fun _ => 5) (valBytes 7) (fun _ => 0) = none ∧
      fclib_arr_assign_val_at [2] 1 (fun _ => 5) 7 (fun _ => 0) = none :=
  ⟨rfl, rfl, rfl, rfl⟩

/-- C1: for every shape, element size and seed value, the Sequential fill
(fclib_arr_fill_seq), the Exponential fill (fclib_arr_fill_exp) and the
Hybrid fill (fclib_arr_fill_val) — whichever branch its 128-byte threshold
selects — produce byte-for-byte identical payload contents.  The seed bytes
handed to the pointer-based fills are required to agree with the object
representation of the size_t seed passed to the Hybrid fill, and
element_size ≤ 8 keeps the Hybrid fill's read of its 8-byte value container
within bounds. -/
theorem C1_fill_strategies_byte_identical
    (dims : List Nat) (es : Nat) (v : Nat) (value mem : Nat → Nat)
    (hes : es ≤ 8) (hseed : ∀ i, i < es → value i = valBytes v i) :
    ∀ j, j < totalElems dims * es →
      fclib_arr_fill_seq dims es value mem j = fclib_arr_fill_exp dims es value mem j ∧
      fclib_arr_fill_seq dims es value mem j = fclib_arr_fill_val dims es v mem j := by
  intro j hj
  rw [fill_seq_char, fill_exp_char, fill_val_char]
  have hes0 : 0 < es := by
    rcases Nat.eq_zero_or_pos es with h | h
    · rw [h, Nat.mul_zero] at hj
      exact absurd hj (Nat.not_lt_zero j)
    · exact h
  have hlt : j < max (totalElems dims) 1 * es :=
    lt_of_lt_of_le hj (Nat.mul_le_mul_right _ (le_max_left _ _))
  refine ⟨rfl, ?_⟩
  unfold fillUpTo
  rw [if_pos hlt, if_pos hlt]
  exact hseed (j % es) (Nat.mod_lt _ hes0)

/-- Witness for C1 at shape [5], element size 1, seed 7, payload byte 0. -/
theorem C1_fill_strategies_byte_identical_witness :
    (1 : Nat) ≤ 8 ∧ (0 : Nat) < totalElems [5] * 1 ∧
      (fclib_arr_fill_seq [5] 1 (valBytes 7) (fun _ => 0) 0
          = fclib_arr_fill_exp [5] 1 (valBytes 7) (fun _ => 0) 0 ∧
        fclib_arr_fill_seq [5] 1 (valBytes 7) (fun _ => 0) 0
          = fclib_arr_fill_val [5] 1 7 (fun _ => 0) 0) :=
  ⟨by decide, by decide,
    C1_fill_strategies_byte_identical [5] 1 7 (valBytes 7) (fun _ => 0)
      (by decide) (fun _ _ => rfl) 0 (by decide)⟩

/-- C10: for every shape containing a zero-length axis the element count is
zero and the payload region is empty, yet each of fclib_arr_fill_seq,
fclib_arr_fill_exp and fclib_arr_fill_val still copies the element_size
seed bytes to the start of the payload region (offsets 0 .. element_size-1,
all of which lie beyond the empty payload): the head write is not guarded
by total_elements > 0. -/
theorem C10_fill_unguarded_head_write
    (dims : List Nat) (es : Nat) (v : Nat) (value mem : Nat → Nat)
    (h0 : 0 ∈ dims) :
    totalElems dims = 0 ∧
      ∀ j, j < es →
        fclib_arr_fill_seq dims es value mem j = value j ∧
        fclib_arr_fill_exp dims es value mem j = value j ∧
        fclib_arr_fill_val dims es v mem j = valBytes v j := by
  have ht : totalElems dims = 0 := totalElems_zero_of_mem dims h0 1
  refine ⟨ht, fun j hj => ?_⟩
  rw [fill_seq_char, fill_exp_char, fill_val_char, ht]
  have hone : max 0 1 = 1 := by decide
  rw [hone]
  unfold fillUpTo
  have hlt : j < 1 * es := by omega
  simp only [if_pos hlt]
  rw [Nat.mod_eq_of_lt hj]
  exact ⟨rfl, rfl, rfl⟩

/-- Witness for C10 at shape [0,4], element size 2, seed 0x0102. -/
theorem C10_fill_unguarded_head_write_witness :
    (0 : Nat) ∈ [0, 4] ∧ totalElems [0, 4] = 0 ∧ (0 : Nat) < 2 ∧
      (fclib_arr_fill_seq [0, 4] 2 (valBytes 258) (fun _ => 0) 0 = valBytes 258 0 ∧
        fclib_arr_fill_exp [0, 4] 2 (valBytes 258) (fun _ => 0) 0 = valBytes 258 0 ∧
        fclib_arr_fill_val [0, 4] 2 258 (fun _ => 0) 0 = valBytes 258 0) :=
  ⟨by decide,
    (C10_fill_unguarded_head_write [0, 4] 2 258 (valBytes 258) (fun _ => 0) (by decide)).1,
    by decide,
    (C10_fill_unguarded_head_write [0, 4] 2 258 (valBytes 258) (fun _ => 0) (by decide)).2
      0 (by decide)⟩

/- ------------------------------------------------------------------ -/
/- Helper lemmas about slicing                                          -/
/- ------------------------------------------------------------------ -/

theorem slice1d_ne_invalid (L es frm t : Nat) (srcMem uninit : Nat → Nat) :
    fclib_arr_get_slice_1d L es frm t srcMem uninit ≠ SliceResult.invalid := by
  show (if frm = slice1dRealTo L t then SliceResult.fatal
      else if frm > slice1dRealTo L t ∧ slice1dRealTo L t = 0 then SliceResult.fatal
      else SliceResult.ok [slice1dRealTo L t - slice1dRealFrom L frm t]
        (fun j => if j < (slice1dRealTo L t - slice1dRealFrom L frm t) * es
          then srcMem (slice1dRealFrom L frm t * es + j) else uninit j))
      ≠ SliceResult.invalid
  split_ifs <;> simp

theorem shift_exists_iff (l : Nat) (tail : List Nat) (r : Nat → Nat) (i : Nat)
    (hok : ¬ axisViolates l (r (2 * i)) (r (2 * i + 1))) :
    ((∃ k, k < tail.length ∧
        axisViolates (tail.getD k 0) (r (2 * (i + 1 + k))) (r (2 * (i + 1 + k) + 1)))
      ↔ (∃ k, k < (l :: tail).length ∧
          axisViolates ((l :: tail).getD k 0) (r (2 * (i + k))) (r (2 * (i + k) + 1)))) := by
  constructor
  · rintro ⟨k, hk, hv⟩
    refine ⟨k + 1, by simpa using Nat.succ_lt_succ hk, ?_⟩
    have e1 : i + (k + 1) = i + 1 + k := by omega
    rw [List.getD_cons_succ, e1]
    exact hv
  · rintro ⟨k, hk, hv⟩
    rcases k with - | k
    · exfalso
      apply hok
      simpa using hv
    · have e1 : i + (k + 1) = i + 1 + k := by omega
      rw [List.getD_cons_succ, e1] at hv
      exact ⟨k, by simpa using Nat.lt_of_succ_lt_succ hk, hv⟩

theorem sliceValidateGo_none_iff (r : Nat → Nat) :
    ∀ (ls : List Nat) (i nd : Nat),
      (sliceValidateGo r ls i nd = none ↔
        ∃ k, k < ls.length ∧
          axisViolates (ls.getD k 0) (r (2 * (i + k))) (r (2 * (i + k) + 1))) := by
  intro ls
  induction ls with
  | nil =>
      intro i nd
      simp [sliceValidateGo]
  | cons l tail ih =>
      intro i nd
      show ((if r (2 * i) ≠ r (2 * i + 1) then
            if r (2 * i + 1) > l then none
            else if sub64 (r (2 * i + 1)) (r (2 * i)) < 2 then none
            else sliceValidateGo r tail (i + 1) (nd + 1)
          else
            if r (2 * i) ≥ l then none
            else sliceValidateGo r tail (i + 1) nd) = none) ↔ _
      by_cases hft : r (2 * i) ≠ r (2 * i + 1)
      · rw [if_pos hft]
        by_cases h1 : r (2 * i + 1) > l
        · rw [if_pos h1]
          refine iff_of_true rfl ⟨0, by simp, ?_⟩
          rw [Nat.add_zero, List.getD_cons_zero]
          exact Or.inr ⟨hft, Or.inl h1⟩
        · rw [if_neg h1]
          by_cases h2 : sub64 (r (2 * i + 1)) (r (2 * i)) < 2
          · rw [if_pos h2]
            refine iff_of_true rfl ⟨0, by simp, ?_⟩
            rw [Nat.add_zero, List.getD_cons_zero]
            exact Or.inr ⟨hft, Or.inr h2⟩
          · rw [if_neg h2, ih (i + 1) (nd + 1)]
            exact shift_exists_iff l tail r i (fun hv => by
              rcases hv with ⟨heq, -⟩ | ⟨-, hor⟩
              · exact hft heq
              · rcases hor with h | h
                · exact h1 h
                · exact h2 h)
      · rw [if_neg hft]
        have hfe : r (2 * i) = r (2 * i + 1) := by
          by_contra hne
          exact hft hne
        by_cases h1 : r (2 * i) ≥ l
        · rw [if_pos h1]
          refine iff_of_true rfl ⟨0, by simp, ?_⟩
          rw [Nat.add_zero, List.getD_cons_zero]
          exact Or.inl ⟨hfe, h1⟩
        · rw [if_neg h1, ih (i + 1) nd]
          exact shift_exists_iff l tail r i (fun hv => by
            rcases hv with ⟨-, hge⟩ | ⟨hne, -⟩
            · exact h1 hge
            · exact hne hfe)

theorem sliceValidate_none_iff (dims : List Nat) (r : Nat → Nat) :
    sliceValidate dims r = none ↔ specSomeAxisViolates dims r := by
  unfold sliceValidate specSomeAxisViolates
  rw [sliceValidateGo_none_iff r dims 0 0]
  simp

theorem slice_invalid_iff (dims : List Nat) (es : Nat) (r : Nat → Nat)
    (srcMem uninit : Nat → Nat) :
    fclib_arr_get_slice dims es r srcMem uninit = SliceResult.invalid ↔
      specSomeAxisViolates dims r := by
  cases hval : sliceValidate dims r with
  | none =>
      have hgoal : fclib_arr_get_slice dims es r srcMem uninit = SliceResult.invalid := by
        unfold fclib_arr_get_slice
        rw [hval]
      rw [hgoal]
      exact iff_of_true rfl ((sliceValidate_none_iff dims r).mp hval)
  | some nd =>
      have hno : ¬ specSomeAxisViolates dims r := fun hv => by
        rw [(sliceValidate_none_iff dims r).mpr hv] at hval
        cases hval
      refine iff_of_false ?_ hno
      unfold fclib_arr_get_slice
      rw [hval]
      show ¬ (if nd = 0 then SliceResult.fatal
        else
          if dims.length = 1 ∧ nd = 1 then
            if r 0 ≠ r 1 then
              fclib_arr_get_slice_1d (dims.headD 0) es (r 0) (r 1) srcMem uninit
            else SliceResult.fatal
          else
            if listProdW (sliceNewDims dims r) % sliceChunk r ≠ 0 then SliceResult.fatal
            else
              if listProdW (sliceNewDims dims r) / sliceChunk r = 0 then
                SliceResult.ok (sliceNewDims dims r) uninit
              else
                SliceResult.ok (sliceNewDims dims r) (sliceChunkCopy dims es r srcMem uninit))
        = SliceResult.invalid
      intro heq
      split at heq
      · exact SliceResult.noConfusion heq
      · split at heq
        · split at heq
          · exact slice1d_ne_invalid _ _ _ _ _ _ heq
          · exact SliceResult.noConfusion heq
        · split at heq
          · exact SliceResult.noConfusion heq
          · split at heq <;> exact SliceResult.noConfusion heq

/-- C4: fclib_arr_get_slice_1d on a 1-D source of length L first replaces
to = 0 by L and clamps to > L down to L; it terminates the process
(`fatal`) exactly when from equals the clamped to, or from exceeds it and
the clamped to is 0; otherwise it clamps from to (clamped to) - 1 when from
exceeds the clamped to, and returns a fresh 1-D array of length
(clamped to) - (clamped from) whose payload is a verbatim copy of
source[(clamped from) .. (clamped to)). -/
theorem C4_slice_1d_policy (L es frm t : Nat) (srcMem uninit : Nat → Nat) :
    (t = 0 → slice1dRealTo L t = L) ∧
      (t ≠ 0 → t ≤ L → slice1dRealTo L t = t) ∧
      (L < t → slice1dRealTo L t = L) ∧
      (fclib_arr_get_slice_1d L es frm t srcMem uninit = SliceResult.fatal ↔
        frm = slice1dRealTo L t ∨ (frm > slice1dRealTo L t ∧ slice1dRealTo L t = 0)) ∧
      (frm > slice1dRealTo L t → slice1dRealFrom L frm t = slice1dRealTo L t - 1) ∧
      (frm ≤ slice1dRealTo L t → slice1dRealFrom L frm t = frm) ∧
      (¬(frm = slice1dRealTo L t ∨ (frm > slice1dRealTo L t ∧ slice1dRealTo L t = 0)) →
        (fclib_arr_get_slice_1d L es frm t srcMem uninit).getDims
            = [slice1dRealTo L t - slice1dRealFrom L frm t] ∧
          ∀ j, j < (slice1dRealTo L t - slice1dRealFrom L frm t) * es →
            (fclib_arr_get_slice_1d L es frm t srcMem uninit).byteAt j
              = srcMem (slice1dRealFrom L frm t * es + j)) := by
  refine ⟨?_, ?_, ?_, ?_, ?_, ?_, ?_⟩
  · intro h
    simp only [slice1dRealTo]
    split_ifs <;> omega
  · intro h1 h2
    simp only [slice1dRealTo]
    split_ifs <;> omega
  · intro h
    simp only [slice1dRealTo]
    split_ifs <;> omega
  · by_cases h1 : frm = slice1dRealTo L t
    · have hres : fclib_arr_get_slice_1d L es frm t srcMem uninit = SliceResult.fatal := by
        show (if frm = slice1dRealTo L t then SliceResult.fatal else _) = SliceResult.fatal
        rw [if_pos h1]
      rw [hres]
      exact iff_of_true rfl (Or.inl h1)
    · by_cases h2 : frm > slice1dRealTo L t ∧ slice1dRealTo L t = 0
      · have hres : fclib_arr_get_slice_1d L es frm t srcMem uninit = SliceResult.fatal := by
          show (if frm = slice1dRealTo L t then SliceResult.fatal
            else if frm > slice1dRealTo L t ∧ slice1dRealTo L t = 0 then SliceResult.fatal
            else _) = SliceResult.fatal
          rw [if_neg h1, if_pos h2]
        rw [hres]
        exact iff_of_true rfl (Or.inr h2)
      · have hres : fclib_arr_get_slice_1d L es frm t srcMem uninit
            = SliceResult.ok [slice1dRealTo L t - slice1dRealFrom L frm t]
              (fun j => if j < (slice1dRealTo L t - slice1dRealFrom L frm t) * es
                then srcMem (slice1dRealFrom L frm t * es + j) else uninit j) := by
          show (if frm = slice1dRealTo L t then SliceResult.fatal
            else if frm > slice1dRealTo L t ∧ slice1dRealTo L t = 0 then SliceResult.fatal
            else SliceResult.ok [slice1dRealTo L t - slice1dRealFrom L frm t]
              (fun j => if j < (slice1dRealTo L t - slice1dRealFrom L frm t) * es
                then srcMem (slice1dRealFrom L frm t * es + j) else uninit j)) = _
          rw [if_neg h1, if_neg h2]
        rw [hres]
        refine iff_of_false (fun h => SliceResult.noConfusion h) ?_
        rintro (h | h)
        · exact h1 h
        · exact h2 h
  · intro h
    simp only [slice1dRealFrom]
    rw [if_pos h]
  · intro h
    simp only [slice1dRealFrom]
    rw [if_neg (by omega)]
  · intro hnf
    have h1 : frm ≠ slice1dRealTo L t := fun h => hnf (Or.inl h)
    have h2 : ¬(frm > slice1dRealTo L t ∧ slice1dRealTo L t = 0) := fun h => hnf (Or.inr h)
    have hres : fclib_arr_get_slice_1d L es frm t srcMem uninit
        = SliceResult.ok [slice1dRealTo L t - slice1dRealFrom L frm t]
          (fun j => if j < (slice1dRealTo L t - slice1dRealFrom L frm t) * es
            then srcMem (slice1dRealFrom L frm t * es + j) else uninit j) := by
      show (if frm = slice1dRealTo L t then SliceResult.fatal
        else if frm > slice1dRealTo L t ∧ slice1dRealTo L t = 0 then SliceResult.fatal
        else SliceResult.ok [slice1dRealTo L t - slice1dRealFrom L frm t]
          (fun j => if j < (slice1dRealTo L t - slice1dRealFrom L frm t) * es
            then srcMem (slice1dRealFrom L frm t * es + j) else uninit j)) = _
      rw [if_neg h1, if_neg h2]
    rw [hres]
    refine ⟨rfl, fun j hj => ?_⟩
    show (if j < (slice1dRealTo L t - slice1dRealFrom L frm t) * es
      then srcMem (slice1dRealFrom L frm t * es + j) else uninit j) = _
    rw [if_pos hj]

/-- Witness for C4: source length 4, element size 1, range [1, 3): the
result is a 1-D array of length 2 whose first byte is source byte 1; and
the degenerate range [3, 3) terminates the process. -/
theorem C4_slice_1d_policy_witness :
    (fclib_arr_get_slice_1d 4 1 1 3 (fun j => j) (fun _ => 99)).getDims = [2] ∧
      (fclib_arr_get_slice_1d 4 1 1 3 (fun j => j) (fun _ => 99)).byteAt 0 = 1 ∧
      fclib_arr_get_slice_1d 10 1 3 3 (fun j => j) (fun _ => 99) = SliceResult.fatal := by
  obtain ⟨-, -, -, -, -, -, h7⟩ := C4_slice_1d_policy 4 1 1 3 (fun j => j) (fun _ => 99)
  have h8 := h7 (by decide)
  obtain ⟨-, -, -, hiff, -, -, -⟩ := C4_slice_1d_policy 10 1 3 3 (fun j => j) (fun _ => 99)
  refine ⟨?_, ?_, ?_⟩
  · have := h8.1
    simpa using this
  · have := h8.2 0 (by decide)
    simpa using this
  · exact hiff.mpr (by decide)

/-- C6 counterexample: on a [4,4] source with ranges [1,1, 2,2] every axis
satisfies its per-axis rule (both are valid fixed indices), yet the call
does not produce an array: the all-fixed selection reaches the active
assert(new_dimensionality > 0) and terminates the process. -/
theorem C6_all_fixed_counterexample :
    ¬ axisViolates 4 1 1 ∧ ¬ axisViolates 4 2 2 ∧
      fclib_arr_get_slice [4, 4] 1 (fun i => [1, 1, 2, 2].getD i 0)
        (fun j => j) (fun _ => 0) = SliceResult.fatal :=
  ⟨by decide, by decide, rfl⟩

/-- C6 amended: fclib_arr_get_slice reports failure (returns NULL, leaving
the source untouched) exactly when some axis violates its rule — a fixed
axis (from = to) with from ≥ shape[i], or a range axis with to > shape[i]
or to - from < 2, the difference being the code's unsigned size_t
subtraction.  When every axis satisfies its rule no failure is reported,
but the call does not always produce an array: it terminates the process
instead when every axis is fixed (assert) and can do so for wrapped
reversed ranges reaching the 1-D slicer's fatal cases. -/
theorem C6_slice_invalid_iff_axis_violation (dims : List Nat) (es : Nat) (r : Nat → Nat)
    (srcMem uninit : Nat → Nat) :
    fclib_arr_get_slice dims es r srcMem uninit = SliceResult.invalid ↔
      specSomeAxisViolates dims r :=
  slice_invalid_iff dims es r srcMem uninit

/-- C9: the reversed range pair (from, to) = (3, 1) on the second axis of a
[4,4] source (to = 1 ≤ 4, first axis the full valid range [0,4)) passes
validation because to - from is computed in unsigned 64-bit arithmetic:
no failure is reported (the call does not return NULL) and the wrapped
difference 2^64 - 2 becomes the output axis length. -/
theorem C9_reversed_range_passes_validation :
    (3 : Nat) > 1 ∧ (1 : Nat) ≤ 4 ∧
      sliceValidate [4, 4] (fun i => [0, 4, 3, 1].getD i 0) = some 2 ∧
      fclib_arr_get_slice [4, 4] 1 (fun i => [0, 4, 3, 1].getD i 0)
          (fun j => j) (fun _ => 0) ≠ SliceResult.invalid ∧
      sliceNewDims [4, 4] (fun i => [0, 4, 3, 1].getD i 0)
        = [4, 18446744073709551614] := by
  refine ⟨by decide, by decide, by decide, ?_, by decide⟩
  rw [Ne, slice_invalid_iff]
  rintro ⟨k, hk, hv⟩
  have hcase : k = 0 ∨ k = 1 := by
    simp at hk
    omega
  rcases hcase with h | h <;> subst h <;> revert hv <;> decide

/-- C2 counterexample: on a [4,4] source, ranges [0,4, 1,2] make axis 1 a
range of length 1, which the validation rejects (to - from < 2): the call
reports failure (returns NULL) instead of succeeding as the claim states. -/
theorem C2_single_element_range_rejected :
    fclib_arr_get_slice [4, 4] 1 (fun i => [0, 4, 1, 2].getD i 0)
      (fun j => j) (fun _ => 0) = SliceResult.invalid :=
  rfl

/-- C2 amended: a fixed index is expressed as from = to, so the column at
index 1 of a [4,4] source is selected by ranges [0,4, 1,1]; that call
succeeds and produces a 1-D array of length 4 whose payload bytes are the
source bytes of elements (i, 1), i = 0..3 (source byte offsets
4·element_size .. 8·element_size). -/
theorem C2_fixed_index_column_slice (es : Nat) (srcMem uninit : Nat → Nat) :
    (fclib_arr_get_slice [4, 4] es (fun i => [0, 4, 1, 1].getD i 0) srcMem uninit).getDims
        = [4] ∧
      ∀ j, j < 4 * es →
        (fclib_arr_get_slice [4, 4] es (fun i => [0, 4, 1, 1].getD i 0) srcMem uninit).byteAt j
          = srcMem (4 * es + j) := by
  have key : fclib_arr_get_slice [4, 4] es (fun i => [0, 4, 1, 1].getD i 0) srcMem uninit
      = SliceResult.ok [4] (memcpyAt uninit 0 (fun o => srcMem (4 * es + o)) (4 * es)) := rfl
  rw [key]
  refine ⟨rfl, fun j hj => ?_⟩
  show (if 0 ≤ j ∧ j < 0 + 4 * es then srcMem (4 * es + (j - 0)) else uninit j)
      = srcMem (4 * es + j)
  rw [if_pos ⟨Nat.zero_le j, by omega⟩, Nat.sub_zero]

/-- Witness for C2 amended at element size 1 and source payload byte j at
offset j: the column slice holds bytes 4..7. -/
theorem C2_fixed_index_column_slice_witness :
    (fclib_arr_get_slice [4, 4] 1 (fun i => [0, 4, 1, 1].getD i 0)
        (fun j => j) (fun _ => 99)).getDims = [4] ∧
      (fclib_arr_get_slice [4, 4] 1 (fun i => [0, 4, 1, 1].getD i 0)
        (fun j => j) (fun _ => 99)).byteAt 0 = 4 :=
  ⟨(C2_fixed_index_column_slice 1 (fun j => j) (fun _ => 99)).1,
    (C2_fixed_index_column_slice 1 (fun j => j) (fun _ => 99)).2 0 (by decide)⟩

/-- C5: evaluation of fclib_arr_get_slice at the failing input and at
scenario B.  Failing input: source shape [1,2,2] (axis 0 fastest), element
size 1, source byte j at offset j, ranges [0,0, 0,2, 0,2] (exactly one
fixed axis).  The code returns shape [2,2] — dimensionality one less — but
payload bytes (0, 2, 1, 3): the selected hyperplane transposed, because the
odometer advances the last source axis fastest while the layout stores the
first result axis fastest; the specified hyperplane in layout order is
(0, 1, 2, 3).  Scenario B (shape [4,4], ranges [1,3, 2,2]) is 2-D, where
only one odometer axis varies, and does hold: a 1-D length-2 result holding
source elements at flat offsets 9 and 10: (row 1, col 2), (row 2, col 2). -/
theorem C5_slice_hyperplane_eval :
    ((fclib_arr_get_slice [1, 2, 2] 1 (fun i => [0, 0, 0, 2, 0, 2].getD i 0)
        (fun j => j) (fun _ => 99)).getDims = [2, 2] ∧
      (fclib_arr_get_slice [1, 2, 2] 1 (fun i => [0, 0, 0, 2, 0, 2].getD i 0)
        (fun j => j) (fun _ => 99)).byteAt 0 = 0 ∧
      (fclib_arr_get_slice [1, 2, 2] 1 (fun i => [0, 0, 0, 2, 0, 2].getD i 0)
        (fun j => j) (fun _ => 99)).byteAt 1 = 2 ∧
      (fclib_arr_get_slice [1, 2, 2] 1 (fun i => [0, 0, 0, 2, 0, 2].getD i 0)
        (fun j => j) (fun _ => 99)).byteAt 2 = 1 ∧
      (fclib_arr_get_slice [1, 2, 2] 1 (fun i => [0, 0, 0, 2, 0, 2].getD i 0)
        (fun j => j) (fun _ => 99)).byteAt 3 = 3) ∧
    ((fclib_arr_get_slice [4, 4] 1 (fun i => [1, 3, 2, 2].getD i 0)
        (fun j => j) (fun _ => 99)).getDims = [2] ∧
      (fclib_arr_get_slice [4, 4] 1 (fun i => [1, 3, 2, 2].getD i 0)
        (fun j => j) (fun _ => 99)).byteAt 0 = 9 ∧
      (fclib_arr_get_slice [4, 4] 1 (fun i => [1, 3, 2, 2].getD i 0)
        (fun j => j) (fun _ => 99)).byteAt 1 = 10) :=
  ⟨⟨rfl, rfl, rfl, rfl, rfl⟩, ⟨rfl, rfl, rfl⟩⟩
